import Mathlib

/-!
Verification of the DirHash concurrent hashing engine.

The definitions below are a shallow embedding of the Go sources:
  - src/src/files/file.go          (File, HashAlgorithm, GetSupportedAlgorithms)
  - src/src/files/enumerate_files.go (HashFiles, hashWorker, calculateAllHashes)
  - src/src/args/hash_algorithm.go (StrHashAlgorithmToId, HashAlgorithmValidation)
  - src/src/args/parse_args.go     (the algorithm-value loop of ParseArgs)

Go machine integers are modelled as Int (no overflow is reachable), byte
slices as lists of naturals below 256, Go maps as association lists with
Go assignment semantics, and the standard-library hash functions
(crypto/md5 etc., outside this repository) as an abstract parameter
`digest : Int → List Byte → List Byte` giving each algorithm's pure
byte-level digest.  The worker pool and the channel-based aggregator are
embedded sequentially: the nondeterministic order in which per-file
outcomes reach the aggregator is an explicit parameter `perm`
(a permutation of the batch), and theorems quantify over it.
-/

namespace DirHash

/-- A byte of file content (value below 256). -/
abbrev Byte := Nat

/-- Algorithm registry entry (file.go, `HashAlgorithm`): numeric id and canonical name. -/
structure HashAlgorithm where
  ID : Int
  Name : String
deriving DecidableEq

/-- file.go `GetSupportedAlgorithms`: the canonical table of supported algorithms. -/
def GetSupportedAlgorithms : List HashAlgorithm :=
  [⟨0, "md5"⟩, ⟨1, "sha1"⟩, ⟨2, "sha256"⟩, ⟨3, "sha512"⟩]

/-- hash_algorithm.go `StrHashAlgorithmToId`: translate an algorithm name to its id, -1 if invalid. -/
def StrHashAlgorithmToId (s : String) : Int :=
  if s = "md5" then 0
  else if s = "sha1" then 1
  else if s = "sha256" then 2
  else if s = "sha512" then 3
  else -1

/-- hash_algorithm.go `HashAlgorithmValidation`: `some errorMessage` models a non-nil Go error. -/
def HashAlgorithmValidation (id : Int) : Option String :=
  if id < 0 ∨ id > 3 then
    some "invalid hash algorithm. argument must be one of: md5, sha1, sha256, sha512"
  else none

/-- A Go `map[string]string`, as an association list with at most one entry per key. -/
abbrev StrMap := List (String × String)

/-- Go map assignment `m[k] = v`: replace the entry for `k` if present, else append it. -/
def mapSet : StrMap → String → String → StrMap
  | [], k, v => [(k, v)]
  | (k0, v0) :: rest, k, v =>
    if k0 = k then (k, v) :: rest else (k0, v0) :: mapSet rest k v

/-- Go map lookup `m[k]` together with its presence bit. -/
def mapGet (m : StrMap) (k : String) : Option String :=
  (m.find? (fun p => p.1 == k)).map (·.2)

/-- file.go `File`: path metadata plus the digest map keyed by algorithm name. -/
structure File where
  FileName : String
  Path : String
  Size : Int
  ModTime : Int
  Hashes : StrMap
deriving DecidableEq

/-- A file as the storage layer serves it to `io.Copy`: the successive chunks the
streaming read delivers, and whether the read fails partway (after which no
further content is available).  The logical content is the join of the chunks. -/
structure FsFile where
  chunks : List (List Byte)
  readErr : Bool
deriving DecidableEq

/-- The filesystem: `none` means `os.Open` fails for that path. -/
abbrev FileSystem := String → Option FsFile

/-- The byte content of a stored file, as the single stream `io.Copy` reads. -/
def fileContent (f : FsFile) : List Byte := f.chunks.flatten

/-- Lowercase hexadecimal digit (Go `%x` formatting), for `n < 16`. -/
def hexDigit (n : Nat) : Char :=
  if n < 10 then Char.ofNat (48 + n) else Char.ofNat (87 + n)

/-- `fmt.Sprintf("%x", bytes)`: two lowercase hex digits per byte. -/
def hexChars : List Byte → List Char
  | [] => []
  | b :: rest => hexDigit (b % 256 / 16) :: hexDigit (b % 16) :: hexChars rest

/-- `fmt.Sprintf("%x", bytes)` as a string. -/
def hexString (bs : List Byte) : String := String.mk (hexChars bs)

/-- The sixteen characters a lowercase hex rendering may contain: the digits zero
through nine followed by the lowercase letters a through f. -/
def hexAlphabet : List Char := (List.range 16).map hexDigit

/-- A string is a lowercase-hex digest rendering: every character is a hex digit. -/
def isLowerHex (s : String) : Bool := s.data.all (fun c => hexAlphabet.contains c)

/-- The pure digest function of the Go standard library hash packages
(crypto/md5, crypto/sha1, crypto/sha256, crypto/sha512), abstract: algorithm
id and absorbed bytes to digest bytes. -/
abbrev Digest := Int → List Byte → List Byte

/-- A `hash.Hash` accumulator: its algorithm id and the bytes written to it so far. -/
abbrev Hasher := Int × List Byte

/-- `hasher.Sum(nil)`: the digest of everything written to the accumulator. -/
def hasherSum (digest : Digest) (h : Hasher) : List Byte := digest h.1 h.2

/-- The hasher-construction loop of `calculateAllHashes`: one fresh accumulator per
algorithm, failing on the first id outside the supported set. -/
def mkHashers : List Int → Except String (List Hasher)
  | [] => .ok []
  | a :: rest =>
    if a = 0 ∨ a = 1 ∨ a = 2 ∨ a = 3 then
      (mkHashers rest).map (fun hs => (a, []) :: hs)
    else .error ("unsupported algorithm: " ++ toString a)

/-- One `io.MultiWriter` write: the chunk goes to every accumulator. -/
def writeChunk (hs : List Hasher) (c : List Byte) : List Hasher :=
  hs.map (fun h => (h.1, h.2 ++ c))

/-- `io.Copy(multiWriter, f)`: stream the file's chunks, fanning each out to all accumulators. -/
def streamAll (hs : List Hasher) (chunks : List (List Byte)) : List Hasher :=
  chunks.foldl writeChunk hs

/-- The digest-extraction loop of `calculateAllHashes`:
`file.Hashes[algoNames[i]] = fmt.Sprintf("%x", hashers[i].Sum(nil))` in order. -/
def writeDigests (digest : Digest) : StrMap → List (Hasher × String) → StrMap
  | m, [] => m
  | m, (h, n) :: rest => writeDigests digest (mapSet m n (hexString (hasherSum digest h))) rest

/-- What one call of `calculateAllHashes` did: the file record afterwards (Go mutates
it in place), the returned error, how many times the file was opened, and the
bytes it read from storage, in order. -/
structure HashOutcome where
  fileAfter : File
  error : Option String
  opens : Nat
  bytesRead : List Byte
deriving DecidableEq

/-- enumerate_files.go `calculateAllHashes`: open the file, build one fresh accumulator
per algorithm, stream the content once through all of them, then record each digest
in the file's map under the matching algorithm name. -/
def calculateAllHashes (digest : Digest) (fs : FileSystem) (file : File)
    (algorithms : List Int) (algoNames : List String) : HashOutcome :=
  match fs file.Path with
  | none => ⟨file, some ("failed to open file " ++ file.Path), 0, []⟩
  | some f =>
    match mkHashers algorithms with
    | .error e => ⟨file, some e, 1, []⟩
    | .ok hashers =>
      if f.readErr then
        ⟨file, some ("failed to read file " ++ file.Path), 1, fileContent f⟩
      else
        ⟨{ file with
            Hashes := writeDigests digest file.Hashes ((streamAll hashers f.chunks).zip algoNames) },
          none, 1, fileContent f⟩

/-- enumerate_files.go `hashWorker`, restricted to one pulled file: on error the worker
emits the error and does not forward the record; on success it forwards the record. -/
def hashWorkerOne (digest : Digest) (fs : FileSystem) (algorithms : List Int)
    (algoNames : List String) (g : File) : HashOutcome :=
  calculateAllHashes digest fs g algorithms algoNames

/-- The algorithm-name lookup `algoNames[algo]` built in `HashFiles` from the registry. -/
def algoNameLookup (a : Int) : Option String :=
  (GetSupportedAlgorithms.find? (fun x => x.ID == a)).map (·.Name)

/-- The validation loop of `HashFiles`: keep each requested id found in the registry
together with its canonical name (in request order, duplicates kept); ids not in
the registry are skipped (Go logs and continues). -/
def filterValidAlgos : List Int → List Int × List String
  | [] => ([], [])
  | a :: rest =>
    let p := filterValidAlgos rest
    match algoNameLookup a with
    | some n => (a :: p.1, n :: p.2)
    | none => p

/-- What one call of `HashFiles` returned: the collected success records, the returned
error, and how many workers were spawned. -/
structure BatchResult where
  result : List File
  error : Option String
  workersSpawned : Nat
deriving DecidableEq

/-- enumerate_files.go `HashFiles`.  `numCPU` is `runtime.NumCPU()` (at least 1);
`perm` is the order in which per-file outcomes reach the aggregator — an arbitrary
permutation of `files`, since workers finish in any order.  The aggregator collects
every forwarded record and every emitted error and returns the first error, if any. -/
def HashFiles (digest : Digest) (fs : FileSystem) (numCPU : Nat) (perm : List File)
    (files : List File) (hashAlgos : List Int) : BatchResult :=
  if files.length = 0 then ⟨files, none, 0⟩
  else
    let va := (filterValidAlgos hashAlgos).1
    let nl := (filterValidAlgos hashAlgos).2
    if va.length = 0 then ⟨files, some "no valid hash algorithms provided", 0⟩
    else
      let numWorkers := if numCPU > files.length then files.length else numCPU
      let outs := perm.map (hashWorkerOne digest fs va nl)
      ⟨(outs.filter (fun o => o.error.isNone)).map (·.fileAfter),
        (outs.filterMap (·.error)).head?, numWorkers⟩

/-- The `-a` value loop of parse_args.go `ParseArgs` (lines 60-70), applied to the raw
arguments after the flag: collect consecutive non-flag values, translating each via
`StrHashAlgorithmToId` and failing on the first invalid name. -/
def parseAlgorithmArgs : List String → Except String (List String × List Int)
  | [] => .ok ([], [])
  | s :: rest =>
    if s.front = '-' then .ok ([], [])
    else if StrHashAlgorithmToId s = -1 then .error ("invalid hash algorithm: " ++ s)
    else
      match parseAlgorithmArgs rest with
      | .ok (strs, ids) => .ok (s :: strs, StrHashAlgorithmToId s :: ids)
      | .error e => .error e

/-- Modelled from the spec: "each digest it records equals the digest an independent
single-algorithm hash of the same file content would produce" — a fresh accumulator
for the one algorithm absorbs the whole content once and is rendered lowercase-hex. -/
def specSingleAlgorithmDigest (digest : Digest) (a : Int) (content : List Byte) : String :=
  hexString (digest a content)

/-- The single-algorithm digest a canonical algorithm name denotes for a given content. -/
def canonicalDigestFor (digest : Digest) (content : List Byte) (n : String) : String :=
  match GetSupportedAlgorithms.find? (fun x => x.Name == n) with
  | some x => specSingleAlgorithmDigest digest x.ID content
  | none => ""

/-! ### Helper lemmas about the embedded operations -/

theorem streamAll_eq (chunks : List (List Byte)) (hs : List Hasher) :
    streamAll hs chunks = hs.map (fun h => (h.1, h.2 ++ chunks.flatten)) := by
  induction chunks generalizing hs with
  | nil => simp [streamAll]
  | cons c cs ih =>
    simp only [streamAll, List.foldl_cons] at *
    rw [ih]
    simp [writeChunk, List.map_map, Function.comp, List.append_assoc]

theorem mkHashers_ok (algos : List Int) (h : ∀ a ∈ algos, a = 0 ∨ a = 1 ∨ a = 2 ∨ a = 3) :
    mkHashers algos = .ok (algos.map (fun a => (a, ([] : List Byte)))) := by
  induction algos with
  | nil => rfl
  | cons a rest ih =>
    have ha := h a (by simp)
    simp [mkHashers, ha, ih (fun b hb => h b (by simp [hb])), Except.map]

theorem mkHashers_ok_inv (algos : List Int) (hs : List Hasher)
    (h : mkHashers algos = .ok hs) :
    hs = algos.map (fun a => (a, ([] : List Byte))) ∧
      ∀ a ∈ algos, a = 0 ∨ a = 1 ∨ a = 2 ∨ a = 3 := by
  induction algos generalizing hs with
  | nil =>
    simp [mkHashers] at h
    simp [h.symm]
  | cons a rest ih =>
    by_cases ha : a = 0 ∨ a = 1 ∨ a = 2 ∨ a = 3
    · simp only [mkHashers, if_pos ha] at h
      cases hr : mkHashers rest with
      | error e => rw [hr] at h; simp [Except.map] at h
      | ok hs0 =>
        rw [hr] at h
        simp [Except.map] at h
        obtain ⟨h1, h2⟩ := ih hs0 hr
        subst h1
        constructor
        · simp [h.symm]
        · intro b hb
          rcases List.mem_cons.mp hb with hb | hb
          · exact hb ▸ ha
          · exact h2 b hb
    · simp [mkHashers, if_neg ha] at h

theorem mapGet_nil (q : String) : mapGet [] q = none := rfl

theorem mapGet_cons (k0 v0 : String) (rest : StrMap) (q : String) :
    mapGet ((k0, v0) :: rest) q = if k0 = q then some v0 else mapGet rest q := by
  by_cases h : k0 = q
  · rw [mapGet, List.find?_cons_of_pos _ (by simp [h]), if_pos h]
    rfl
  · rw [mapGet, List.find?_cons_of_neg _ (by simp [h]), if_neg h]
    rfl

theorem mapGet_mapSet (m : StrMap) (k v q : String) :
    mapGet (mapSet m k v) q = if q = k then some v else mapGet m q := by
  induction m with
  | nil =>
    show mapGet [(k, v)] q = _
    rw [mapGet_cons]
    by_cases hq : q = k
    · rw [if_pos hq.symm, if_pos hq]
    · rw [if_neg (fun hh => hq hh.symm), if_neg hq, mapGet_nil]
  | cons p rest ih =>
    obtain ⟨k0, v0⟩ := p
    by_cases h : k0 = k
    · subst h
      rw [show mapSet ((k0, v0) :: rest) k0 v = (k0, v) :: rest from by simp [mapSet]]
      rw [mapGet_cons, mapGet_cons]
      by_cases hq : q = k0
      · subst hq
        simp
      · rw [if_neg (fun hh => hq hh.symm), if_neg hq, if_neg (fun hh => hq hh.symm)]
    · rw [show mapSet ((k0, v0) :: rest) k v = (k0, v0) :: mapSet rest k v from by
        simp [mapSet, h]]
      rw [mapGet_cons, mapGet_cons]
      by_cases hq : k0 = q
      · rw [if_pos hq, if_pos hq, if_neg (fun hh => h (hq.trans hh))]
      · rw [if_neg hq, if_neg hq, ih]

theorem mapSet_ne_nil (m : StrMap) (k v : String) : mapSet m k v ≠ [] := by
  cases m with
  | nil => simp [mapSet]
  | cons p rest =>
    obtain ⟨k0, v0⟩ := p
    by_cases h : k0 = k <;> simp [mapSet, h]

theorem writeDigests_ne_nil (digest : Digest) (m : StrMap)
    (entries : List (Hasher × String)) (hm : m ≠ []) :
    writeDigests digest m entries ≠ [] := by
  induction entries generalizing m with
  | nil => exact hm
  | cons p rest ih =>
    obtain ⟨h, n⟩ := p
    exact ih _ (mapSet_ne_nil _ _ _)

theorem algoNameLookup_mem (a : Int) (n : String) (h : algoNameLookup a = some n) :
    (⟨a, n⟩ : HashAlgorithm) ∈ GetSupportedAlgorithms := by
  unfold algoNameLookup at h
  cases hf : GetSupportedAlgorithms.find? (fun x => x.ID == a) with
  | none => rw [hf] at h; simp at h
  | some x =>
    rw [hf] at h
    simp only [Option.map] at h
    rw [Option.some.injEq] at h
    have hx := List.mem_of_find?_eq_some hf
    have hpx := List.find?_some hf
    have hid : x.ID = a := by simpa using hpx
    have : (⟨a, n⟩ : HashAlgorithm) = x := by
      cases x
      simp_all
    rw [this]
    exact hx

theorem algoNameLookup_table (a : Int) (n : String) (h : algoNameLookup a = some n) :
    (a = 0 ∧ n = "md5") ∨ (a = 1 ∧ n = "sha1") ∨
      (a = 2 ∧ n = "sha256") ∨ (a = 3 ∧ n = "sha512") := by
  have hm := algoNameLookup_mem a n h
  simp only [GetSupportedAlgorithms, List.mem_cons, List.mem_singleton,
    List.not_mem_nil, or_false] at hm
  rcases hm with hm | hm | hm | hm <;>
    simp only [HashAlgorithm.mk.injEq] at hm <;> tauto

theorem algoNameLookup_isSome_valid (a : Int) (h : (algoNameLookup a).isSome = true) :
    a = 0 ∨ a = 1 ∨ a = 2 ∨ a = 3 := by
  obtain ⟨n, hn⟩ := Option.isSome_iff_exists.mp h
  rcases algoNameLookup_table a n hn with ⟨ha, _⟩ | ⟨ha, _⟩ | ⟨ha, _⟩ | ⟨ha, _⟩ <;>
    simp [ha]

/-- Reverse lookup in the registry, by canonical name. -/
theorem find_by_name (a : Int) (n : String) (h : algoNameLookup a = some n) :
    GetSupportedAlgorithms.find? (fun x => x.Name == n) = some ⟨a, n⟩ := by
  rcases algoNameLookup_table a n h with ⟨ha, hn⟩ | ⟨ha, hn⟩ | ⟨ha, hn⟩ | ⟨ha, hn⟩ <;>
    subst ha <;> subst hn <;> rfl

theorem filterValidAlgos_eq (l : List Int) :
    filterValidAlgos l =
      (l.filter (fun a => (algoNameLookup a).isSome), l.filterMap algoNameLookup) := by
  induction l with
  | nil => rfl
  | cons a rest ih =>
    simp only [filterValidAlgos, ih]
    cases h : algoNameLookup a <;>
      simp [List.filter_cons, List.filterMap_cons, h]

theorem filterValidAlgos_forall₂ (l : List Int) :
    List.Forall₂ (fun a n => algoNameLookup a = some n)
      (filterValidAlgos l).1 (filterValidAlgos l).2 := by
  induction l with
  | nil => exact .nil
  | cons a rest ih =>
    simp only [filterValidAlgos]
    cases h : algoNameLookup a with
    | none => exact ih
    | some n => exact .cons h ih

theorem filterValidAlgos_valid (l : List Int) :
    ∀ a ∈ (filterValidAlgos l).1, a = 0 ∨ a = 1 ∨ a = 2 ∨ a = 3 := by
  intro a ha
  rw [filterValidAlgos_eq] at ha
  have ha2 : a ∈ l.filter (fun a => (algoNameLookup a).isSome) := ha
  have ha3 := List.of_mem_filter ha2
  exact algoNameLookup_isSome_valid a (by simpa using ha3)

/-- Running the digest-extraction loop: looking up a key afterwards yields the
coherent value for that key if the loop wrote it, and the old value otherwise. -/
theorem writeDigests_get (digest : Digest) (entries : List (Hasher × String))
    (V : String → String)
    (hcoh : ∀ p ∈ entries, hexString (hasherSum digest p.1) = V p.2) :
    ∀ (m : StrMap) (q : String),
      mapGet (writeDigests digest m entries) q =
        if q ∈ entries.map (fun p => p.2) then some (V q) else mapGet m q := by
  induction entries with
  | nil => intro m q; simp [writeDigests]
  | cons p rest ih =>
    intro m q
    obtain ⟨h, n⟩ := p
    have hv : hexString (hasherSum digest h) = V n := hcoh (h, n) (by simp)
    have ihq := ih (fun p hp => hcoh p (by simp [hp]))
      (mapSet m n (hexString (hasherSum digest h))) q
    show mapGet (writeDigests digest (mapSet m n (hexString (hasherSum digest h))) rest) q = _
    rw [ihq]
    by_cases hq : q ∈ rest.map (fun p => p.2)
    · rw [if_pos hq, if_pos (by simp [hq])]
    · rw [if_neg hq, mapGet_mapSet]
      by_cases hqn : q = n
      · rw [if_pos hqn, if_pos (by simp [hqn]), hqn, hv]
      · rw [if_neg hqn, if_neg (by simp [hqn, hq])]

theorem mapGet_none_of_nil (q : String) : mapGet ([] : StrMap) q = none := rfl

theorem mapSet_fresh_len (m : StrMap) (k v : String) (h : mapGet m k = none) :
    (mapSet m k v).length = m.length + 1 := by
  induction m with
  | nil => rfl
  | cons p rest ih =>
    obtain ⟨k0, v0⟩ := p
    rw [mapGet_cons] at h
    by_cases hk : k0 = k
    · rw [if_pos hk] at h
      exact absurd h (by simp)
    · rw [if_neg hk] at h
      simp [mapSet, hk, ih h]

/-- Writing digests for distinct, fresh algorithm names grows the map by one entry each. -/
theorem writeDigests_length (digest : Digest) (entries : List (Hasher × String)) :
    ∀ (m : StrMap), (entries.map (fun p => p.2)).Nodup →
      (∀ p ∈ entries, mapGet m p.2 = none) →
      (writeDigests digest m entries).length = m.length + entries.length := by
  induction entries with
  | nil => intro m _ _; rfl
  | cons p rest ih =>
    intro m hnodup hfresh
    obtain ⟨h, n⟩ := p
    simp only [List.map_cons, List.nodup_cons] at hnodup
    have hm' : ∀ p ∈ rest, mapGet (mapSet m n (hexString (hasherSum digest h))) p.2 = none := by
      intro p hp
      rw [mapGet_mapSet]
      have hne : p.2 ≠ n := by
        intro hh
        exact hnodup.1 (hh ▸ List.mem_map_of_mem (fun p => p.2) hp)
      rw [if_neg hne]
      exact hfresh p (by simp [hp])
    show (writeDigests digest (mapSet m n (hexString (hasherSum digest h))) rest).length = _
    rw [ih _ hnodup.2 hm',
      mapSet_fresh_len m n _ (hfresh (h, n) (by simp))]
    simp [Nat.add_assoc, Nat.add_comm 1]

theorem calculateAllHashes_openErr (digest : Digest) (fs : FileSystem) (file : File)
    (va : List Int) (nl : List String) (hopen : fs file.Path = none) :
    calculateAllHashes digest fs file va nl =
      ⟨file, some ("failed to open file " ++ file.Path), 0, []⟩ := by
  simp [calculateAllHashes, hopen]

theorem calculateAllHashes_success (digest : Digest) (fs : FileSystem) (file : File)
    (va : List Int) (nl : List String) (f : FsFile)
    (hopen : fs file.Path = some f) (hread : f.readErr = false)
    (hvalid : ∀ a ∈ va, a = 0 ∨ a = 1 ∨ a = 2 ∨ a = 3) :
    calculateAllHashes digest fs file va nl =
      ⟨{ file with Hashes := writeDigests digest file.Hashes ((va.map (fun a => (a, fileContent f))).zip nl) }, none, 1, fileContent f⟩ := by
  simp only [calculateAllHashes, hopen, mkHashers_ok va hvalid, hread, Bool.false_eq_true,
    if_false, streamAll_eq, List.map_map, Function.comp_def, List.nil_append]
  simp [fileContent]

theorem calculateAllHashes_readErr (digest : Digest) (fs : FileSystem) (file : File)
    (va : List Int) (nl : List String) (f : FsFile)
    (hopen : fs file.Path = some f) (hread : f.readErr = true) :
    (calculateAllHashes digest fs file va nl).error.isSome = true ∧
      (calculateAllHashes digest fs file va nl).fileAfter = file := by
  cases hmk : mkHashers va with
  | error e => simp [calculateAllHashes, hopen, hmk]
  | ok hs => simp [calculateAllHashes, hopen, hmk, hread]

theorem calculateAllHashes_success_inv (digest : Digest) (fs : FileSystem) (file : File)
    (va : List Int) (nl : List String)
    (h : (calculateAllHashes digest fs file va nl).error = none) :
    ∃ f, fs file.Path = some f ∧ f.readErr = false ∧
      (∀ a ∈ va, a = 0 ∨ a = 1 ∨ a = 2 ∨ a = 3) := by
  cases hfs : fs file.Path with
  | none => rw [calculateAllHashes_openErr digest fs file va nl hfs] at h; simp at h
  | some f =>
    cases hmk : mkHashers va with
    | error e => simp [calculateAllHashes, hfs, hmk] at h
    | ok hs =>
      cases hread : f.readErr
      · exact ⟨f, rfl, hread, (mkHashers_ok_inv va hs hmk).2⟩
      · simp [calculateAllHashes, hfs, hmk, hread] at h

theorem HashFiles_run (digest : Digest) (fs : FileSystem) (numCPU : Nat)
    (perm files : List File) (hashAlgos : List Int)
    (hne : files ≠ []) (hva : (filterValidAlgos hashAlgos).1 ≠ []) :
    HashFiles digest fs numCPU perm files hashAlgos =
      ⟨((perm.map (hashWorkerOne digest fs (filterValidAlgos hashAlgos).1
            (filterValidAlgos hashAlgos).2)).filter (fun o => o.error.isNone)).map
          (fun o => o.fileAfter),
        ((perm.map (hashWorkerOne digest fs (filterValidAlgos hashAlgos).1
            (filterValidAlgos hashAlgos).2)).filterMap (fun o => o.error)).head?,
        if numCPU > files.length then files.length else numCPU⟩ := by
  simp only [HashFiles, List.length_eq_zero, hne, hva, if_false]

theorem HashFiles_noValid (digest : Digest) (fs : FileSystem) (numCPU : Nat)
    (perm files : List File) (hashAlgos : List Int)
    (hne : files ≠ []) (hva : (filterValidAlgos hashAlgos).1 = []) :
    HashFiles digest fs numCPU perm files hashAlgos =
      ⟨files, some "no valid hash algorithms provided", 0⟩ := by
  simp only [HashFiles, List.length_eq_zero, hne, hva, if_false, List.length_nil, if_true]

theorem hexDigit_mem_alphabet : ∀ n < 16, hexAlphabet.contains (hexDigit n) = true := by
  decide

theorem isLowerHex_hexString (bs : List Byte) : isLowerHex (hexString bs) = true := by
  show (hexChars bs).all (fun c => hexAlphabet.contains c) = true
  induction bs with
  | nil => rfl
  | cons b rest ih =>
    simp only [hexChars, List.all_cons, Bool.and_eq_true]
    refine ⟨hexDigit_mem_alphabet _ ?_, hexDigit_mem_alphabet _ ?_, ih⟩
    · have : b % 256 < 256 := Nat.mod_lt _ (by omega)
      omega
    · exact Nat.mod_lt _ (by omega)

theorem forall₂_lookup_valid (va : List Int) (nl : List String)
    (hrel : List.Forall₂ (fun a n => algoNameLookup a = some n) va nl) :
    ∀ a ∈ va, a = 0 ∨ a = 1 ∨ a = 2 ∨ a = 3 := by
  induction hrel with
  | nil => intro a ha; simp at ha
  | cons hr ht ih =>
    intro b hb
    rcases List.mem_cons.mp hb with hb | hb
    · subst hb
      exact algoNameLookup_isSome_valid b (by rw [hr]; rfl)
    · exact ih b hb

theorem forall₂_zip_mem (R : Int → String → Prop) (va : List Int) (nl : List String)
    (hrel : List.Forall₂ R va nl) :
    ∀ p ∈ va.zip nl, R p.1 p.2 := by
  induction hrel with
  | nil => intro p hp; simp at hp
  | cons hr ht ih =>
    intro p hp
    rw [List.zip_cons_cons] at hp
    rcases List.mem_cons.mp hp with hp | hp
    · subst hp; exact hr
    · exact ih p hp

theorem forall₂_mem_right (R : Int → String → Prop) (va : List Int) (nl : List String)
    (hrel : List.Forall₂ R va nl) :
    ∀ n ∈ nl, ∃ a ∈ va, R a n := by
  induction hrel with
  | nil => intro n hn; simp at hn
  | cons hr ht ih =>
    intro n hn
    rcases List.mem_cons.mp hn with hn | hn
    · subst hn; exact ⟨_, by simp, hr⟩
    · obtain ⟨a, ha, hra⟩ := ih n hn
      exact ⟨a, by simp [ha], hra⟩

theorem zip_map_snd (va : List Int) (nl : List String) (h : va.length = nl.length) :
    (va.zip nl).map (fun q => q.2) = nl := by
  induction va generalizing nl with
  | nil => cases nl with
    | nil => rfl
    | cons n t => simp at h
  | cons a t ih =>
    cases nl with
    | nil => simp at h
    | cons n tl => simp [List.zip_cons_cons, ih tl (by simpa using h)]

/-- Coherence of the digest-extraction entries: the value written under each name is
the canonical single-algorithm digest that name denotes. -/
theorem entries_coherent (digest : Digest) (content : List Byte) (va : List Int)
    (nl : List String)
    (hrel : List.Forall₂ (fun a n => algoNameLookup a = some n) va nl) :
    ∀ q ∈ (va.map (fun a => (a, content))).zip nl,
      hexString (hasherSum digest q.1) = canonicalDigestFor digest content q.2 := by
  intro q hq
  rw [List.zip_map_left] at hq
  obtain ⟨⟨b, m⟩, hmem, hqe⟩ := List.mem_map.mp hq
  subst hqe
  have hr : algoNameLookup b = some m := forall₂_zip_mem _ va nl hrel (b, m) hmem
  show hexString (digest b content) = canonicalDigestFor digest content m
  rw [canonicalDigestFor, find_by_name b m hr]
  rfl

theorem writeDigests_cons_ne_nil (digest : Digest) (m : StrMap) (e : Hasher × String)
    (rest : List (Hasher × String)) :
    writeDigests digest m (e :: rest) ≠ [] := by
  obtain ⟨h, n⟩ := e
  exact writeDigests_ne_nil digest _ rest (mapSet_ne_nil m n _)

theorem filter_of_map (w : File → HashOutcome) (p : HashOutcome → Bool) (l : List File) :
    (l.map w).filter p = (l.filter (fun g => p (w g))).map w := by
  induction l with
  | nil => rfl
  | cons g t ih =>
    simp only [List.map_cons, List.filter_cons]
    by_cases h : p (w g) <;> simp [h, ih]

theorem isSome_eq_not_isNone (o : Option String) : o.isSome = !o.isNone := by
  cases o <;> rfl

/-! ### The claims -/

/-- C1: for every file and every non-empty validated algorithm list, the per-file
digest computation opens the file once and reads its byte content exactly once —
one streaming pass whose read trace is precisely the content, independent of the
number K of algorithms, fanned out to K fresh accumulators — and each digest it
records equals the digest an independent single-algorithm hash of the same file
content would produce. -/
theorem C1_single_pass_refines_single_algorithm (digest : Digest) (fs : FileSystem)
    (file : File) (va : List Int) (nl : List String) (f : FsFile)
    (hopen : fs file.Path = some f) (hread : f.readErr = false)
    (hrel : List.Forall₂ (fun a n => algoNameLookup a = some n) va nl)
    (_hK : va ≠ []) :
    (calculateAllHashes digest fs file va nl).opens = 1 ∧
      (calculateAllHashes digest fs file va nl).bytesRead = fileContent f ∧
      mkHashers va = .ok (va.map (fun a => (a, ([] : List Byte)))) ∧
      (calculateAllHashes digest fs file va nl).error = none ∧
      ∀ p ∈ va.zip nl,
        mapGet (calculateAllHashes digest fs file va nl).fileAfter.Hashes p.2 =
          some (specSingleAlgorithmDigest digest p.1 (fileContent f)) := by
  have hvalid := forall₂_lookup_valid va nl hrel
  rw [calculateAllHashes_success digest fs file va nl f hopen hread hvalid]
  refine ⟨rfl, rfl, mkHashers_ok va hvalid, rfl, ?_⟩
  intro p hp
  obtain ⟨a, n⟩ := p
  have hzip := forall₂_zip_mem _ va nl hrel (a, n) hp
  have hcoh := entries_coherent digest (fileContent f) va nl hrel
  rw [writeDigests_get digest _ (canonicalDigestFor digest (fileContent f)) hcoh file.Hashes n]
  have hnames : ((va.map (fun a => (a, fileContent f))).zip nl).map (fun q => q.2) =
      (va.zip nl).map (fun q => q.2) := by
    rw [List.zip_map_left, List.map_map]
    rfl
  have hmemn : n ∈ ((va.map (fun a => (a, fileContent f))).zip nl).map (fun q => q.2) := by
    rw [hnames]
    exact List.mem_map_of_mem (fun q => q.2) hp
  rw [if_pos hmemn, canonicalDigestFor, find_by_name a n hzip]

/-- C1 witness: a two-chunk file hashed with md5 and sha256 under an abstract digest
function; one open, the read trace is the content, each recorded digest is the
single-algorithm digest of that content. -/
theorem C1_single_pass_refines_single_algorithm_witness :
    (calculateAllHashes (fun a bs => [a.natAbs + bs.length])
        (fun p => if p = "a" then some ⟨[[104, 101], [33]], false⟩ else none)
        ⟨"a", "a", 3, 0, []⟩ [0, 2] ["md5", "sha256"]).opens = 1 ∧
      (calculateAllHashes (fun a bs => [a.natAbs + bs.length])
        (fun p => if p = "a" then some ⟨[[104, 101], [33]], false⟩ else none)
        ⟨"a", "a", 3, 0, []⟩ [0, 2] ["md5", "sha256"]).bytesRead = [104, 101, 33] ∧
      mapGet (calculateAllHashes (fun a bs => [a.natAbs + bs.length])
        (fun p => if p = "a" then some ⟨[[104, 101], [33]], false⟩ else none)
        ⟨"a", "a", 3, 0, []⟩ [0, 2] ["md5", "sha256"]).fileAfter.Hashes "sha256" =
        some (specSingleAlgorithmDigest (fun a bs => [a.natAbs + bs.length]) 2 [104, 101, 33]) := by
  have h := C1_single_pass_refines_single_algorithm (fun a bs => [a.natAbs + bs.length])
    (fun p => if p = "a" then some ⟨[[104, 101], [33]], false⟩ else none)
    ⟨"a", "a", 3, 0, []⟩ [0, 2] ["md5", "sha256"] ⟨[[104, 101], [33]], false⟩
    (by decide) rfl
    (List.Forall₂.cons (by decide) (List.Forall₂.cons (by decide) List.Forall₂.nil))
    (by decide)
  exact ⟨h.1, h.2.1, h.2.2.2.2 (2, "sha256") (by decide)⟩

/-- C2 counterexample: a duplicated request (md5 twice) is reachable through
`HashFiles` and succeeds, but the digest map ends with 1 entry while 2 algorithms
were requested. -/
theorem C2_counterexample :
    (HashFiles (fun _ _ => [0]) (fun _ => some ⟨[[104]], false⟩) 1
        [⟨"a", "a", 1, 0, []⟩] [⟨"a", "a", 1, 0, []⟩] [0, 0]).error = none ∧
      (HashFiles (fun _ _ => [0]) (fun _ => some ⟨[[104]], false⟩) 1
        [⟨"a", "a", 1, 0, []⟩] [⟨"a", "a", 1, 0, []⟩] [0, 0]).result =
        [⟨"a", "a", 1, 0, [("md5", "00")]⟩] ∧
      ¬ ((1 : Nat) = ([0, 0] : List Int).length) :=
  ⟨by decide, by decide, by decide⟩

/-- C2 amended: whenever the per-file computation succeeds, the digest map contains
every requested algorithm name as a key mapped to a lowercase-hex digest, and the
number of map entries equals the number of requested algorithms provided the
requested names are distinct (a duplicated request collapses onto one entry). -/
theorem C2_completeness_amended (digest : Digest) (fs : FileSystem) (file : File)
    (va : List Int) (nl : List String)
    (hsucc : (calculateAllHashes digest fs file va nl).error = none)
    (hrel : List.Forall₂ (fun a n => algoNameLookup a = some n) va nl)
    (hempty : file.Hashes = []) (hnodup : nl.Nodup) :
    (calculateAllHashes digest fs file va nl).fileAfter.Hashes.length = va.length ∧
      ∀ n ∈ nl, ∃ v,
        mapGet (calculateAllHashes digest fs file va nl).fileAfter.Hashes n = some v ∧
          isLowerHex v = true := by
  obtain ⟨f, hopen, hread, hvalid⟩ := calculateAllHashes_success_inv digest fs file va nl hsucc
  rw [calculateAllHashes_success digest fs file va nl f hopen hread hvalid]
  have hlen : va.length = nl.length := hrel.length_eq
  have hnames : ((va.map (fun a => (a, fileContent f))).zip nl).map (fun q => q.2) = nl := by
    rw [List.zip_map_left, List.map_map]
    show (va.zip nl).map (fun q => q.2) = nl
    exact zip_map_snd va nl hlen
  constructor
  · show (writeDigests digest file.Hashes _).length = va.length
    rw [hempty]
    rw [writeDigests_length digest _ [] (by rw [hnames]; exact hnodup) (fun p _ => rfl)]
    simp only [List.length_nil, Nat.zero_add, List.length_zip, List.length_map]
    omega
  · intro n hn
    have hcoh := entries_coherent digest (fileContent f) va nl hrel
    rw [writeDigests_get digest _ (canonicalDigestFor digest (fileContent f)) hcoh file.Hashes n]
    rw [if_pos (by rw [hnames]; exact hn)]
    obtain ⟨a, _, hra⟩ := forall₂_mem_right _ va nl hrel n hn
    refine ⟨canonicalDigestFor digest (fileContent f) n, rfl, ?_⟩
    rw [canonicalDigestFor, find_by_name a n hra]
    exact isLowerHex_hexString _

/-- C2 witness for the amended claim: distinct algorithms md5 and sha256. -/
theorem C2_completeness_amended_witness :
    (calculateAllHashes (fun a bs => [a.natAbs + bs.length])
        (fun p => if p = "a" then some ⟨[[104, 101], [33]], false⟩ else none)
        ⟨"a", "a", 3, 0, []⟩ [0, 2] ["md5", "sha256"]).error = none ∧
      (["md5", "sha256"] : List String).Nodup ∧
      (calculateAllHashes (fun a bs => [a.natAbs + bs.length])
        (fun p => if p = "a" then some ⟨[[104, 101], [33]], false⟩ else none)
        ⟨"a", "a", 3, 0, []⟩ [0, 2] ["md5", "sha256"]).fileAfter.Hashes.length =
        ([0, 2] : List Int).length := by
  have h := C2_completeness_amended (fun a bs => [a.natAbs + bs.length])
    (fun p => if p = "a" then some ⟨[[104, 101], [33]], false⟩ else none)
    ⟨"a", "a", 3, 0, []⟩ [0, 2] ["md5", "sha256"] (by decide)
    (List.Forall₂.cons (by decide) (List.Forall₂.cons (by decide) List.Forall₂.nil))
    rfl (by decide)
  exact ⟨by decide, by decide, h.1⟩

/-- C3: when the streaming read of an opened file fails partway, the per-file
computation returns an error, the file record is left completely unmodified (in
particular its digest map), and a fresh record for that file cannot appear in the
batch's success collection. -/
theorem C3_read_failure_excluded (digest : Digest) (fs : FileSystem) (numCPU : Nat)
    (perm files : List File) (hashAlgos : List Int) (file : File) (f : FsFile)
    (hopen : fs file.Path = some f) (hread : f.readErr = true)
    (hempty : file.Hashes = [])
    (hne : files ≠ []) (hva : (filterValidAlgos hashAlgos).1 ≠ []) :
    (calculateAllHashes digest fs file (filterValidAlgos hashAlgos).1
        (filterValidAlgos hashAlgos).2).error.isSome = true ∧
      (calculateAllHashes digest fs file (filterValidAlgos hashAlgos).1
        (filterValidAlgos hashAlgos).2).fileAfter = file ∧
      file ∉ (HashFiles digest fs numCPU perm files hashAlgos).result := by
  obtain ⟨herr, hunch⟩ := calculateAllHashes_readErr digest fs file
    (filterValidAlgos hashAlgos).1 (filterValidAlgos hashAlgos).2 f hopen hread
  refine ⟨herr, hunch, ?_⟩
  intro hmem
  rw [HashFiles_run digest fs numCPU perm files hashAlgos hne hva] at hmem
  obtain ⟨o, ho, hoe⟩ := List.mem_map.mp hmem
  have hof := List.mem_of_mem_filter ho
  have hoerr := List.of_mem_filter ho
  obtain ⟨g, hg, hgw⟩ := List.mem_map.mp hof
  subst hgw
  have hnone : (calculateAllHashes digest fs g (filterValidAlgos hashAlgos).1
      (filterValidAlgos hashAlgos).2).error = none := by
    have : (hashWorkerOne digest fs (filterValidAlgos hashAlgos).1
        (filterValidAlgos hashAlgos).2 g).error.isNone = true := hoerr
    exact Option.isNone_iff_eq_none.mp this
  obtain ⟨f2, hopen2, hread2, hvalid2⟩ := calculateAllHashes_success_inv digest fs g
    (filterValidAlgos hashAlgos).1 (filterValidAlgos hashAlgos).2 hnone
  have hoe2 : (calculateAllHashes digest fs g (filterValidAlgos hashAlgos).1
      (filterValidAlgos hashAlgos).2).fileAfter = file := hoe
  rw [calculateAllHashes_success digest fs g (filterValidAlgos hashAlgos).1
    (filterValidAlgos hashAlgos).2 f2 hopen2 hread2 hvalid2] at hoe2
  have hznil : ((filterValidAlgos hashAlgos).1.map (fun a => (a, fileContent f2))).zip
      (filterValidAlgos hashAlgos).2 ≠ [] := by
    have hlen := (filterValidAlgos_forall₂ hashAlgos).length_eq
    cases hva2 : (filterValidAlgos hashAlgos).1 with
    | nil => exact absurd hva2 hva
    | cons a t =>
      rw [hva2] at hlen
      cases hnl : (filterValidAlgos hashAlgos).2 with
      | nil => rw [hnl] at hlen; simp at hlen
      | cons n tl => simp [List.zip_cons_cons]
  have hfne : file.Hashes ≠ [] := by
    rw [← hoe2]
    show writeDigests digest g.Hashes _ ≠ []
    cases hze : ((filterValidAlgos hashAlgos).1.map (fun a => (a, fileContent f2))).zip
        (filterValidAlgos hashAlgos).2 with
    | nil => exact absurd hze hznil
    | cons e rest => exact writeDigests_cons_ne_nil digest g.Hashes e rest
  exact hfne hempty

/-- C3 witness: a file whose read fails after its first chunk, in a two-file batch. -/
theorem C3_read_failure_excluded_witness :
    ((fun p => if p = "bad" then some ⟨[[1]], true⟩ else some ⟨[[2]], false⟩) : FileSystem)
        "bad" = some ⟨[[1]], true⟩ ∧
      (calculateAllHashes (fun _ _ => [7])
        (fun p => if p = "bad" then some ⟨[[1]], true⟩ else some ⟨[[2]], false⟩)
        ⟨"bad", "bad", 1, 0, []⟩ (filterValidAlgos [0]).1 (filterValidAlgos [0]).2).fileAfter =
        ⟨"bad", "bad", 1, 0, []⟩ ∧
      (⟨"bad", "bad", 1, 0, []⟩ : File) ∉
        (HashFiles (fun _ _ => [7])
          (fun p => if p = "bad" then some ⟨[[1]], true⟩ else some ⟨[[2]], false⟩) 2
          [⟨"bad", "bad", 1, 0, []⟩, ⟨"ok", "ok", 1, 0, []⟩]
          [⟨"bad", "bad", 1, 0, []⟩, ⟨"ok", "ok", 1, 0, []⟩] [0]).result := by
  have h := C3_read_failure_excluded (fun _ _ => [7])
    (fun p => if p = "bad" then some ⟨[[1]], true⟩ else some ⟨[[2]], false⟩) 2
    [⟨"bad", "bad", 1, 0, []⟩, ⟨"ok", "ok", 1, 0, []⟩]
    [⟨"bad", "bad", 1, 0, []⟩, ⟨"ok", "ok", 1, 0, []⟩] [0]
    ⟨"bad", "bad", 1, 0, []⟩ ⟨[[1]], true⟩ (by decide) rfl rfl (by decide) (by decide)
  exact ⟨by decide, h.2.1, h.2.2⟩

/-- C9: for every empty input batch, regardless of the requested algorithm list
(and of the filesystem, the parallelism, and the consumption order), `HashFiles`
returns an empty success collection, no error, and spawns no workers. -/
theorem C9_empty_batch (digest : Digest) (fs : FileSystem) (numCPU : Nat)
    (perm : List File) (hashAlgos : List Int) :
    HashFiles digest fs numCPU perm [] hashAlgos = ⟨[], none, 0⟩ := rfl

/-- C6: a non-empty batch whose validated algorithm list is empty fails immediately
with the no-valid-algorithms error, spawns no workers, and processes zero files:
the call returns the input records with their digest maps untouched, so no file is
hashed and no file comes back as a successfully processed record. -/
theorem C6_no_valid_algorithms (digest : Digest) (fs : FileSystem) (numCPU : Nat)
    (perm files : List File) (hashAlgos : List Int)
    (hne : files ≠ []) (hva : (filterValidAlgos hashAlgos).1 = []) :
    (HashFiles digest fs numCPU perm files hashAlgos).error =
        some "no valid hash algorithms provided" ∧
      (HashFiles digest fs numCPU perm files hashAlgos).workersSpawned = 0 ∧
      (HashFiles digest fs numCPU perm files hashAlgos).result = files := by
  rw [HashFiles_noValid digest fs numCPU perm files hashAlgos hne hva]
  exact ⟨rfl, rfl, rfl⟩

/-- C6 witness: one file requested with only the unsupported algorithm id 99. -/
theorem C6_no_valid_algorithms_witness :
    ([(⟨"a.txt", "a.txt", 0, 0, []⟩ : File)] ≠ []) ∧
      (filterValidAlgos [99]).1 = [] ∧
      ((HashFiles (fun _ _ => []) (fun _ => none) 4 [⟨"a.txt", "a.txt", 0, 0, []⟩]
          [⟨"a.txt", "a.txt", 0, 0, []⟩] [99]).error = some "no valid hash algorithms provided" ∧
        (HashFiles (fun _ _ => []) (fun _ => none) 4 [⟨"a.txt", "a.txt", 0, 0, []⟩]
          [⟨"a.txt", "a.txt", 0, 0, []⟩] [99]).workersSpawned = 0 ∧
        (HashFiles (fun _ _ => []) (fun _ => none) 4 [⟨"a.txt", "a.txt", 0, 0, []⟩]
          [⟨"a.txt", "a.txt", 0, 0, []⟩] [99]).result = [⟨"a.txt", "a.txt", 0, 0, []⟩]) :=
  ⟨by decide, by decide,
    C6_no_valid_algorithms (fun _ _ => []) (fun _ => none) 4 _ _ [99] (by decide) (by decide)⟩

/-- C8: for every non-empty batch with a non-empty validated algorithm list, the
number of workers spawned is exactly min(available parallelism, batch size): it
never exceeds the number of files, never exceeds the available parallelism, and is
at least 1 when work exists (runtime.NumCPU() is at least 1). -/
theorem C8_worker_count (digest : Digest) (fs : FileSystem) (numCPU : Nat)
    (perm files : List File) (hashAlgos : List Int)
    (hcpu : 1 ≤ numCPU) (hne : files ≠ []) (hva : (filterValidAlgos hashAlgos).1 ≠ []) :
    (HashFiles digest fs numCPU perm files hashAlgos).workersSpawned =
        min numCPU files.length ∧
      (HashFiles digest fs numCPU perm files hashAlgos).workersSpawned ≤ files.length ∧
      (HashFiles digest fs numCPU perm files hashAlgos).workersSpawned ≤ numCPU ∧
      1 ≤ (HashFiles digest fs numCPU perm files hashAlgos).workersSpawned := by
  have hlen : 1 ≤ files.length := by
    cases files with
    | nil => exact absurd rfl hne
    | cons a l => simp
  have hw : (HashFiles digest fs numCPU perm files hashAlgos).workersSpawned =
      if numCPU > files.length then files.length else numCPU := by
    rw [HashFiles_run digest fs numCPU perm files hashAlgos hne hva]
  rw [hw]
  by_cases h : numCPU > files.length
  · rw [if_pos h]
    refine ⟨?_, ?_, ?_, ?_⟩ <;> omega
  · rw [if_neg h]
    refine ⟨?_, ?_, ?_, ?_⟩ <;> omega

/-- C8 witness: two files, four CPUs: exactly min(4, 2) = 2 workers. -/
theorem C8_worker_count_witness :
    1 ≤ 4 ∧ ([(⟨"a", "a", 0, 0, []⟩ : File), ⟨"b", "b", 0, 0, []⟩] ≠ []) ∧
      (filterValidAlgos [0]).1 ≠ [] ∧
      (HashFiles (fun _ _ => []) (fun _ => none) 4 [⟨"a", "a", 0, 0, []⟩, ⟨"b", "b", 0, 0, []⟩]
          [⟨"a", "a", 0, 0, []⟩, ⟨"b", "b", 0, 0, []⟩] [0]).workersSpawned =
        min 4 [(⟨"a", "a", 0, 0, []⟩ : File), ⟨"b", "b", 0, 0, []⟩].length :=
  ⟨by decide, by decide, by decide,
    (C8_worker_count (fun _ _ => []) (fun _ => none) 4 _ _ [0] (by decide) (by decide)
      (by decide)).1⟩

/-- C4: per-file failures never abort the batch: with a non-empty validated
algorithm list, the successes and failures partition the input batch, every
succeeding file's record is in the returned collection, any failure makes the
returned error non-nil, and the returned error is one actually produced by a file
of the batch — so one bad file in a batch of three still yields the two good
records plus an error referencing the bad file. -/
theorem C4_partial_failure_isolation (digest : Digest) (fs : FileSystem) (numCPU : Nat)
    (perm files : List File) (hashAlgos : List Int) (va : List Int) (nl : List String)
    (hva1 : va = (filterValidAlgos hashAlgos).1) (hnl : nl = (filterValidAlgos hashAlgos).2)
    (hperm : perm.Perm files) (hne : files ≠ []) (hva : va ≠ []) :
    (HashFiles digest fs numCPU perm files hashAlgos).result.length =
        (files.filter (fun g => (hashWorkerOne digest fs va nl g).error.isNone)).length ∧
      (HashFiles digest fs numCPU perm files hashAlgos).result.length +
        (files.filter (fun g => (hashWorkerOne digest fs va nl g).error.isSome)).length =
        files.length ∧
      (∀ g ∈ files, (hashWorkerOne digest fs va nl g).error.isNone = true →
        (hashWorkerOne digest fs va nl g).fileAfter ∈
          (HashFiles digest fs numCPU perm files hashAlgos).result) ∧
      ((∃ g ∈ files, (hashWorkerOne digest fs va nl g).error.isSome = true) →
        (HashFiles digest fs numCPU perm files hashAlgos).error.isSome = true) ∧
      (∀ e, (HashFiles digest fs numCPU perm files hashAlgos).error = some e →
        ∃ g ∈ files, (hashWorkerOne digest fs va nl g).error = some e) := by
  subst hva1
  subst hnl
  simp only [HashFiles_run digest fs numCPU perm files hashAlgos hne hva]
  rw [filter_of_map]
  have hlena : (((perm.filter (fun g => (hashWorkerOne digest fs (filterValidAlgos hashAlgos).1
      (filterValidAlgos hashAlgos).2 g).error.isNone)).map
        (hashWorkerOne digest fs (filterValidAlgos hashAlgos).1
          (filterValidAlgos hashAlgos).2)).map (fun o => o.fileAfter)).length =
      (files.filter (fun g => (hashWorkerOne digest fs (filterValidAlgos hashAlgos).1
        (filterValidAlgos hashAlgos).2 g).error.isNone)).length := by
    rw [List.length_map, List.length_map]
    exact (hperm.filter _).length_eq
  refine ⟨hlena, ?_, ?_, ?_, ?_⟩
  · rw [hlena]
    have hpart := List.filter_append_perm (fun g => (hashWorkerOne digest fs
      (filterValidAlgos hashAlgos).1 (filterValidAlgos hashAlgos).2 g).error.isNone) files
    have hlen := hpart.length_eq
    rw [List.length_append] at hlen
    have hsame : files.filter (fun g => (hashWorkerOne digest fs
        (filterValidAlgos hashAlgos).1 (filterValidAlgos hashAlgos).2 g).error.isSome) =
        files.filter (fun g => !(hashWorkerOne digest fs
          (filterValidAlgos hashAlgos).1 (filterValidAlgos hashAlgos).2 g).error.isNone) := by
      simp only [isSome_eq_not_isNone]
    rw [hsame]
    exact hlen
  · intro g hgf hok
    exact List.mem_map_of_mem _ (List.mem_map_of_mem _
      (List.mem_filter.mpr ⟨hperm.mem_iff.mpr hgf, hok⟩))
  · intro hex
    obtain ⟨g, hgf, hsome⟩ := hex
    obtain ⟨e, he⟩ := Option.isSome_iff_exists.mp hsome
    have hmem : e ∈ (perm.map (hashWorkerOne digest fs (filterValidAlgos hashAlgos).1
        (filterValidAlgos hashAlgos).2)).filterMap (fun o => o.error) :=
      List.mem_filterMap.mpr ⟨_, List.mem_map_of_mem _ (hperm.mem_iff.mpr hgf), he⟩
    cases herr : (perm.map (hashWorkerOne digest fs (filterValidAlgos hashAlgos).1
        (filterValidAlgos hashAlgos).2)).filterMap (fun o => o.error) with
    | nil => rw [herr] at hmem; simp at hmem
    | cons e0 t => rfl
  · intro e he
    cases herr : (perm.map (hashWorkerOne digest fs (filterValidAlgos hashAlgos).1
        (filterValidAlgos hashAlgos).2)).filterMap (fun o => o.error) with
    | nil => rw [herr] at he; simp at he
    | cons e0 t =>
      rw [herr] at he
      have he0 : e0 = e := by simpa using he
      subst he0
      have hmem : e0 ∈ (perm.map (hashWorkerOne digest fs (filterValidAlgos hashAlgos).1
          (filterValidAlgos hashAlgos).2)).filterMap (fun o => o.error) := by
        rw [herr]; simp
      obtain ⟨o, ho, hoe⟩ := List.mem_filterMap.mp hmem
      obtain ⟨g, hg, hgw⟩ := List.mem_map.mp ho
      exact ⟨g, hperm.mem_iff.mp hg, by rw [hgw]; exact hoe⟩

/-- C4 witness: three files, one nonexistent path: exactly 2 records come back, the
error is non-nil and references the bad file. -/
theorem C4_partial_failure_isolation_witness :
    (HashFiles (fun _ _ => [5]) (fun p => if p = "bad" then none else some ⟨[[9]], false⟩) 2
        [⟨"x", "x", 1, 0, []⟩, ⟨"bad", "bad", 1, 0, []⟩, ⟨"y", "y", 1, 0, []⟩]
        [⟨"x", "x", 1, 0, []⟩, ⟨"bad", "bad", 1, 0, []⟩, ⟨"y", "y", 1, 0, []⟩]
        [0]).result.length = 2 ∧
      (HashFiles (fun _ _ => [5]) (fun p => if p = "bad" then none else some ⟨[[9]], false⟩) 2
        [⟨"x", "x", 1, 0, []⟩, ⟨"bad", "bad", 1, 0, []⟩, ⟨"y", "y", 1, 0, []⟩]
        [⟨"x", "x", 1, 0, []⟩, ⟨"bad", "bad", 1, 0, []⟩, ⟨"y", "y", 1, 0, []⟩]
        [0]).error.isSome = true ∧
      (HashFiles (fun _ _ => [5]) (fun p => if p = "bad" then none else some ⟨[[9]], false⟩) 2
        [⟨"x", "x", 1, 0, []⟩, ⟨"bad", "bad", 1, 0, []⟩, ⟨"y", "y", 1, 0, []⟩]
        [⟨"x", "x", 1, 0, []⟩, ⟨"bad", "bad", 1, 0, []⟩, ⟨"y", "y", 1, 0, []⟩]
        [0]).error = some "failed to open file bad" := by
  have h := C4_partial_failure_isolation (fun _ _ => [5])
    (fun p => if p = "bad" then none else some ⟨[[9]], false⟩) 2
    [⟨"x", "x", 1, 0, []⟩, ⟨"bad", "bad", 1, 0, []⟩, ⟨"y", "y", 1, 0, []⟩]
    [⟨"x", "x", 1, 0, []⟩, ⟨"bad", "bad", 1, 0, []⟩, ⟨"y", "y", 1, 0, []⟩]
    [0] [0] ["md5"] (by decide) (by decide) (List.Perm.refl _) (by decide) (by decide)
  refine ⟨h.1.trans (by decide), h.2.2.2.1 ⟨⟨"bad", "bad", 1, 0, []⟩, by decide, by decide⟩,
    by decide⟩

/-- C5: when at least one error occurs, the batch call returns exactly one error —
the first in consumption order — together with every file that succeeded; later
errors are not returned. -/
theorem C5_first_error_with_partial_successes (digest : Digest) (fs : FileSystem)
    (numCPU : Nat) (perm files : List File) (hashAlgos : List Int)
    (va : List Int) (nl : List String) (e : String) (rest : List String)
    (hva1 : va = (filterValidAlgos hashAlgos).1) (hnl : nl = (filterValidAlgos hashAlgos).2)
    (hne : files ≠ []) (hva : va ≠ [])
    (herr : (perm.map (hashWorkerOne digest fs va nl)).filterMap (fun o => o.error) =
      e :: rest) :
    (HashFiles digest fs numCPU perm files hashAlgos).error = some e ∧
      ∀ o ∈ perm.map (hashWorkerOne digest fs va nl), o.error = none →
        o.fileAfter ∈ (HashFiles digest fs numCPU perm files hashAlgos).result := by
  subst hva1
  subst hnl
  simp only [HashFiles_run digest fs numCPU perm files hashAlgos hne hva]
  constructor
  · rw [herr]
    rfl
  · intro o ho hoe
    exact List.mem_map_of_mem _ (List.mem_filter.mpr ⟨ho, by simp [hoe]⟩)

/-- C5 witness: two files that both fail to open: the returned error is the first
failure in consumption order, not the second. -/
theorem C5_first_error_with_partial_successes_witness :
    (HashFiles (fun _ _ => [5]) (fun _ => none) 1
        [⟨"b1", "b1", 1, 0, []⟩, ⟨"b2", "b2", 1, 0, []⟩]
        [⟨"b1", "b1", 1, 0, []⟩, ⟨"b2", "b2", 1, 0, []⟩] [0]).error =
      some "failed to open file b1" :=
  (C5_first_error_with_partial_successes (fun _ _ => [5]) (fun _ => none) 1
    [⟨"b1", "b1", 1, 0, []⟩, ⟨"b2", "b2", 1, 0, []⟩]
    [⟨"b1", "b1", 1, 0, []⟩, ⟨"b2", "b2", 1, 0, []⟩] [0] [0] ["md5"]
    "failed to open file b1" ["failed to open file b2"]
    (by decide) (by decide) (by decide) (by decide) (by decide)).1

theorem parseAlgorithmArgs_err (names : List String) (s : String)
    (hflags : ∀ t ∈ names, ¬ t.front = '-')
    (hfind : names.find? (fun t => StrHashAlgorithmToId t == -1) = some s) :
    parseAlgorithmArgs names = .error ("invalid hash algorithm: " ++ s) := by
  induction names with
  | nil => simp [List.find?] at hfind
  | cons t0 tl ih =>
    have hf0 : ¬ t0.front = '-' := hflags t0 (by simp)
    by_cases hbad : StrHashAlgorithmToId t0 = -1
    · rw [List.find?_cons_of_pos _ (by simp [hbad])] at hfind
      have hts : t0 = s := by simpa using hfind
      subst hts
      simp [parseAlgorithmArgs, hf0, hbad]
    · rw [List.find?_cons_of_neg _ (by simp [hbad])] at hfind
      have hrec := ih (fun t ht => hflags t (by simp [ht])) hfind
      simp [parseAlgorithmArgs, hf0, hbad, hrec]

theorem parseAlgorithmArgs_ok (names : List String)
    (hflags : ∀ t ∈ names, ¬ t.front = '-')
    (hall : ∀ t ∈ names, ¬ StrHashAlgorithmToId t = -1) :
    parseAlgorithmArgs names = .ok (names, names.map StrHashAlgorithmToId) := by
  induction names with
  | nil => rfl
  | cons t0 tl ih =>
    have hf0 : ¬ t0.front = '-' := hflags t0 (by simp)
    have hb0 : ¬ StrHashAlgorithmToId t0 = -1 := hall t0 (by simp)
    have hrec := ih (fun t ht => hflags t (by simp [ht])) (fun t ht => hall t (by simp [ht]))
    simp [parseAlgorithmArgs, hf0, hb0, hrec]

/-- C7 counterexample: the batch-level validation of `HashFiles` silently skips the
unsupported id 99 instead of failing, and a duplicated request is not deduplicated. -/
theorem C7_counterexample :
    (HashFiles (fun _ _ => [0]) (fun _ => some ⟨[[104]], false⟩) 1
        [⟨"a", "a", 1, 0, []⟩] [⟨"a", "a", 1, 0, []⟩] [0, 99]).error = none ∧
      filterValidAlgos [0, 0] = ([0, 0], ["md5", "md5"]) :=
  ⟨by decide, by decide⟩

/-- C7 amended: validation happens at two layers and neither deduplicates. The
batch-level filter keeps, in request order and with duplicates preserved, exactly
the requested ids present in the registry paired with their canonical names, and
silently skips unsupported ids rather than failing; the CLI-level parse of
algorithm names fails with an error naming the first unsupported name (and
succeeds, translating every name, when all are supported); and all files of a
batch are hashed with the one identical validated algorithm list. -/
theorem C7_validation_amended (digest : Digest) (fs : FileSystem) (numCPU : Nat)
    (perm files : List File) (l : List Int) (names : List String) (s : String)
    (hflags : ∀ t ∈ names, ¬ t.front = '-')
    (hne : files ≠ []) (hvane : (filterValidAlgos l).1 ≠ []) :
    filterValidAlgos l =
        (l.filter (fun a => (algoNameLookup a).isSome), l.filterMap algoNameLookup) ∧
      (names.find? (fun t => StrHashAlgorithmToId t == -1) = some s →
        parseAlgorithmArgs names = .error ("invalid hash algorithm: " ++ s)) ∧
      ((∀ t ∈ names, ¬ StrHashAlgorithmToId t = -1) →
        parseAlgorithmArgs names = .ok (names, names.map StrHashAlgorithmToId)) ∧
      (HashFiles digest fs numCPU perm files l).result =
        ((perm.filter (fun g => (hashWorkerOne digest fs (filterValidAlgos l).1
            (filterValidAlgos l).2 g).error.isNone)).map
          (hashWorkerOne digest fs (filterValidAlgos l).1 (filterValidAlgos l).2)).map
          (fun o => o.fileAfter) := by
  refine ⟨filterValidAlgos_eq l, parseAlgorithmArgs_err names s hflags,
    parseAlgorithmArgs_ok names hflags, ?_⟩
  simp only [HashFiles_run digest fs numCPU perm files l hne hvane]
  rw [filter_of_map]

/-- C7 witness: parsing md5 then foo fails naming foo; the one-file batch over the
validated list of request md5, sha256 uses that single list. -/
theorem C7_validation_amended_witness :
    parseAlgorithmArgs ["md5", "foo"] = .error "invalid hash algorithm: foo" ∧
      filterValidAlgos [0, 2] =
        ([0, 2].filter (fun a => (algoNameLookup a).isSome),
          [0, 2].filterMap algoNameLookup) := by
  have h := C7_validation_amended (fun _ _ => [0]) (fun _ => some ⟨[[104]], false⟩) 1
    [⟨"a", "a", 1, 0, []⟩] [⟨"a", "a", 1, 0, []⟩] [0, 2] ["md5", "foo"] "foo"
    (by decide) (by decide) (by decide)
  exact ⟨h.2.1 (by decide), h.1⟩

/-- C10: the two algorithm tables agree: `StrHashAlgorithmToId` maps each registry
name to the id the registry pairs with it, returns -1 on every other string, and
`HashAlgorithmValidation` accepts an id exactly when the registry carries it. -/
theorem C10_tables_agree :
    (∀ alg ∈ GetSupportedAlgorithms, StrHashAlgorithmToId alg.Name = alg.ID) ∧
      (∀ s : String, s ∉ ["md5", "sha1", "sha256", "sha512"] → StrHashAlgorithmToId s = -1) ∧
      (∀ id : Int, HashAlgorithmValidation id = none ↔
        ∃ alg ∈ GetSupportedAlgorithms, alg.ID = id) := by
  refine ⟨by decide, ?_, ?_⟩
  · intro s hs
    simp only [List.mem_cons, List.not_mem_nil, or_false, not_or] at hs
    obtain ⟨h1, h2, h3, h4⟩ := hs
    simp [StrHashAlgorithmToId, h1, h2, h3, h4]
  · intro id
    by_cases h : id < 0 ∨ id > 3 <;>
      simp [HashAlgorithmValidation, h, GetSupportedAlgorithms] <;> omega

/-- C10 witness: the name zzz is outside the registry and maps to -1. -/
theorem C10_tables_agree_witness :
    ("zzz" : String) ∉ ["md5", "sha1", "sha256", "sha512"] ∧
      StrHashAlgorithmToId "zzz" = -1 :=
  ⟨by decide, C10_tables_agree.2.1 "zzz" (by decide)⟩

end DirHash
